import Mathlib

/-!
Verification of the spreadsheet engine of `simplespreadsheet`
(`src/rst_simplespreadsheet.py` / `src/simplespreadsheet.py`, class `SpreadSheet`).

The Python source is Python 2: `col / 26` is truncating integer division on
ints, `xrange` is the range iterator, and `5 / 2 == 2`.  The shallow embedding
below translates the coordinate codec (`col_coords`, `row_coords`, `coords`,
`inv_coords`), the shared class-level state (`_cells`, `tools`), and the
evaluation path (`__getitem__`, which calls Python `eval` with the instance as
the local namespace, and the built-in `sum` range function) into executable
Lean definitions, and proves the frozen claims about them.
-/

namespace SimpleSpreadsheet

/-- The regex character class `[a-z]` of `inv_coords` (`re.search('([a-z]+)([0-9]+)', c)`). -/
def isLow (c : Char) : Bool := decide ('a'.toNat ≤ c.toNat ∧ c.toNat ≤ 'z'.toNat)

/-- The regex character class `[0-9]` of `inv_coords`. -/
def isDig (c : Char) : Bool := decide ('0'.toNat ≤ c.toNat ∧ c.toNat ≤ '9'.toNat)

/-- `chr(ord('a') + digit)` from `col_coords`. -/
def chrL (d : Nat) : Char := Char.ofNat ('a'.toNat + d)

/-- A decimal digit character, as produced by Python `str` of a number. -/
def chrD (d : Nat) : Char := Char.ofNat ('0'.toNat + d)

/-- The loop of `SpreadSheet.col_coords`:
`while col >= 0: digit = col % 26; s = chr(ord('a') + digit) + s; col = col / 26 - 1`.
The loop runs while `col >= 0`; each iteration strictly decreases `col`, so a
fuel of `col + 1` always suffices (the fuel is a structural-recursion artifact;
`colChars_eq` below is the loop's exact equation). -/
def colCharsF : Nat → Nat → List Char
  | 0, _ => []
  | f + 1, col =>
    if col < 26 then [chrL (col % 26)]
    else colCharsF f (col / 26 - 1) ++ [chrL (col % 26)]

/-- The character list computed by `SpreadSheet.col_coords(col)` for `col >= 0`. -/
def colChars (col : Nat) : List Char := colCharsF (col + 1) col

/-- `SpreadSheet.col_coords` (static method, lines 149-158). -/
def col_coords (col : Nat) : String := ⟨colChars col⟩

/-- Decimal digit characters of `n`, i.e. Python `str(n)` for `n >= 0`
(fueled for the same reason as `colCharsF`). -/
def natDigitsF : Nat → Nat → List Char
  | 0, _ => []
  | f + 1, n =>
    if n < 10 then [chrD (n % 10)] else natDigitsF f (n / 10) ++ [chrD (n % 10)]

/-- Digits of Python `str(n)` for a non-negative `n`. -/
def natDigits (n : Nat) : List Char := natDigitsF (n + 1) n

/-- Python `str(n)` for an int `n` (negative ints print a leading minus sign). -/
def intChars (n : Int) : List Char :=
  if n < 0 then '-' :: natDigits n.natAbs else natDigits n.toNat

/-- `SpreadSheet.row_coords(row) = str(row + 1)` (lines 160-162). -/
def row_coords (row : Int) : String := ⟨intChars (row + 1)⟩

/-- `SpreadSheet.coords(col, row) = col_coords(col) + row_coords(row)` (lines 164-170). -/
def coords (col : Nat) (row : Int) : String := ⟨colChars col ++ intChars (row + 1)⟩

/-- `re.search('([a-z]+)([0-9]+)', c)`: scan for the leftmost position where a
(maximal, greedy) run of `[a-z]` characters is immediately followed by at least
one `[0-9]` character; return `(group(1), group(2))`, the letter run and the
(greedy) digit run.  If the letter run at a position is not followed by a digit,
backtracking cannot help (shrinking the run exposes a letter where a digit is
required), so the scan restarts one position later. -/
def findMatch : List Char → Option (List Char × List Char)
  | [] => none
  | ch :: rest =>
    if isLow ch then
      match (ch :: rest).dropWhile isLow with
      | [] => findMatch rest
      | d :: ds =>
        if isDig d then some ((ch :: rest).takeWhile isLow, (d :: ds).takeWhile isDig)
        else findMatch rest
    else findMatch rest

/-- The letter-decoding loop of `SpreadSheet.inv_coords`, processing the column
string from its last character to its first:
`col = col + (ord(col_str[-1]) - ord('a') + 1) * m; m = m * 26`.
It is applied to the reversed letter list. -/
def invColAux : List Char → Nat → Nat → Nat
  | [], col, _ => col
  | ch :: rest, col, m => invColAux rest (col + (ch.toNat - 'a'.toNat + 1) * m) (m * 26)

/-- Python `int` of a digit string (`int(r.group(2))`). -/
def digitsVal (ds : List Char) : Nat :=
  ds.foldl (fun a c => a * 10 + (c.toNat - '0'.toNat)) 0

/-- `SpreadSheet.inv_coords` (lines 172-190).  When the regex finds no match,
`r` is `None` and `r.group(1)` raises `AttributeError`; this is the `none`
result.  Otherwise the column is the bijective-base-26 value of group 1 minus
one, and the row is `int(group 2) - 1`. -/
def inv_coords (s : String) : Option (Nat × Int) :=
  match findMatch s.data with
  | none => none
  | some (ls, ds) => some (invColAux ls.reverse 0 1 - 1, (digitsVal ds : Int) - 1)

/-! ### The formula engine -/

/-- A numeric value in the Python 2 engine: an `int` or a `float`.  Floats are
modelled as exact rationals; the claims below only involve values on which
Python float arithmetic is exact. -/
inductive Val where
  | int : Int → Val
  | float : Rat → Val
deriving DecidableEq, Repr

/-- The Python exceptions the evaluation path can raise.  The source defines
no exception classes of its own. -/
inductive Err where
  | keyError : String → Err
  | nameError : String → Err
  | typeError : Err
  | valueError : Err
  | attributeError : Err
  | zeroDivisionError : Err
deriving DecidableEq, Repr

/-- A stored formula, as parsed by Python `eval` from the documented formula
subset: numeric literals, cell references, the four arithmetic operators, and
a call of a registered function on a string literal. -/
inductive Expr where
  | lit : Val → Expr
  | ref : String → Expr
  | add : Expr → Expr → Expr
  | sub : Expr → Expr → Expr
  | mul : Expr → Expr → Expr
  | div : Expr → Expr → Expr
  | call : String → String → Expr
deriving DecidableEq, Repr

/-- The class-level state of `SpreadSheet`: `_cells` and `tools` are CLASS
attributes (lines 134-135), mutated in place and therefore shared by every
instance.  The only key ever written to `tools` is `'sum'` (line 138), so the
registry is modelled by whether that registration has happened. -/
structure St where
  cells : List (String × Expr)
  toolsSum : Bool
deriving DecidableEq, Repr

/-- The module-load state: both class attributes start as empty dicts. -/
def initState : St := ⟨[], false⟩

/-- `SpreadSheet.__init__` (lines 137-138): registers `sum` in the class-level
`tools` dict and touches nothing else — in particular `_cells` is NOT
cleared. -/
def newInstance (s : St) : St := { s with toolsSum := true }

/-- `SpreadSheet.__setitem__` (lines 140-141): `self._cells[key] = formula`,
a dict overwrite on the shared class-level dict. -/
def setItem (s : St) (k : String) (e : Expr) : St :=
  { s with cells := (k, e) :: s.cells.filter (fun p => p.1 != k) }

/-- `SpreadSheet.getformula` (lines 143-144): `self._cells[key]`; a `none`
result is a `KeyError`. -/
def getformula (s : St) (k : String) : Option Expr := s.cells.lookup k

/-- Python `str.split(':')`. -/
def splitCh : List Char → List (List Char)
  | [] => [[]]
  | c :: rest =>
    if c = ':' then [] :: splitCh rest
    else
      match splitCh rest with
      | [] => [[c]]
      | g :: gs => (c :: g) :: gs

/-- `cells.split(':')` on a range text. -/
def splitColon (s : String) : List String := (splitCh s.data).map (fun cs => String.mk cs)

/-- `xrange(a, b + 1)` over non-negative column indices. -/
def natRange (a b : Nat) : List Nat := List.range' a (b + 1 - a)

/-- `xrange(a, b + 1)` over int row indices. -/
def intRange (a b : Int) : List Int :=
  (List.range (b + 1 - a).toNat).map (fun (i : Nat) => a + (i : Int))

/-- The cells visited by the two nested loops of `SpreadSheet.sum`
(lines 207-210), in the code's column-major order. -/
def rectAxes (c1 c2 : Nat) (l1 l2 : Int) : List String :=
  (natRange c1 c2).flatMap (fun c => (intRange l1 l2).map (fun l => coords c l))

/-- The parsing part of `SpreadSheet.sum` (lines 201-204): split the range
text on `':'` (any number of pieces other than two makes the tuple unpacking
raise `ValueError`), decode both endpoints (`inv_coords` raising
`AttributeError` on a non-matching endpoint), and enumerate the cells of the
inclusive rectangle. -/
def sumParse (txt : String) : Except Err (List String) :=
  match splitColon txt with
  | [a, b] =>
    match inv_coords a with
    | none => .error .attributeError
    | some (c1, l1) =>
      match inv_coords b with
      | none => .error .attributeError
      | some (c2, l2) => .ok (rectAxes c1 c2 l1 l2)
  | _ => .error .valueError

/-- Python 2 `+` on numbers: `int + int` is an `int`; any float operand makes
the result a float. -/
def valAdd : Val → Val → Val
  | .int a, .int b => .int (a + b)
  | .int a, .float q => .float (a + q)
  | .float p, .int b => .float (p + b)
  | .float p, .float q => .float (p + q)

/-- Python 2 binary `-` on numbers. -/
def valSub : Val → Val → Val
  | .int a, .int b => .int (a - b)
  | .int a, .float q => .float (a - q)
  | .float p, .int b => .float (p - b)
  | .float p, .float q => .float (p - q)

/-- Python 2 `*` on numbers. -/
def valMul : Val → Val → Val
  | .int a, .int b => .int (a * b)
  | .int a, .float q => .float (a * q)
  | .float p, .int b => .float (p * b)
  | .float p, .float q => .float (p * q)

/-- Python 2 `/`: truncating (floor) division when both operands are ints,
true division as soon as one operand is a float; division by zero raises
`ZeroDivisionError`.  `Int.fdiv` is Python's floor division. -/
def valDiv : Val → Val → Except Err Val
  | .int a, .int b => if b = 0 then .error .zeroDivisionError else .ok (.int (Int.fdiv a b))
  | .int a, .float q => if q = 0 then .error .zeroDivisionError else .ok (.float (a / q))
  | .float p, .int b => if b = 0 then .error .zeroDivisionError else .ok (.float (p / (b : Rat)))
  | .float p, .float q => if q = 0 then .error .zeroDivisionError else .ok (.float (p / q))

/-- A pending piece of evaluation work: evaluating a cell (`__getitem__`),
evaluating an expression inside Python `eval`, or the accumulation loop of
`SpreadSheet.sum`. -/
inductive Job where
  | cell : String → Job
  | expr : Expr → Job
  | sloop : List String → Val → Job

/-- An evaluation outcome.  `none` means the recursion budget was exhausted:
the source has no cycle detection, only the host interpreter's recursion
limit. -/
abbrev Res := Option (Except Err (Val × St))

/-- Python sequencing: continue with the value and the threaded state on
success, propagate an exception or an exhausted budget. -/
def seqVal (r : Res) (k : Val → St → Res) : Res :=
  match r with
  | some (.ok (v, s)) => k v s
  | r => r

/-- The `KeyError` handling inside `LOAD_NAME`: a `KeyError` escaping the
locals lookup is swallowed and the search continues with `alt` (globals, then
builtins); everything else propagates. -/
def onKeyError (r : Res) (alt : Res) : Res :=
  match r with
  | some (.error (.keyError _)) => alt
  | r => r

/-- Turn the result of an arithmetic primitive into an evaluation outcome. -/
def liftExcept (x : Except Err Val) (s : St) : Res :=
  match x with
  | .ok v => some (.ok (v, s))
  | .error e => some (.error e)

/-- The evaluator, indexed by a recursion budget that shrinks by one at every
step.  Each case mirrors the source:

* `cell k` is `SpreadSheet.__getitem__` (lines 146-147):
  `eval(self._cells[key], SpreadSheet.tools, self)` — an absent key raises
  `KeyError`, otherwise the stored formula is evaluated with the instance
  itself as the local namespace and `tools` as the globals.
* `expr e` is Python `eval` of a formula.  Name lookup (`LOAD_NAME`) tries the
  locals mapping first, i.e. `self[x]`, which recursively evaluates cell `x`;
  a `KeyError` escaping that lookup is caught, and the search falls through to
  the globals (`tools`, which only ever holds `sum`) and the builtins, ending
  in `NameError` for coordinate-shaped names.  Operands of the arithmetic
  operators are evaluated left to right, threading the state.
* a call `g("...")` looks `g` up the same way: a stored cell named `g` would
  shadow the registry and its numeric value is not callable (`TypeError`);
  otherwise the registered `sum` parses its range argument and runs the
  summation loop, and an unknown name raises `NameError`.
* `sloop` is the loop of `SpreadSheet.sum` (lines 206-211): `s += self[ax]`
  over the rectangle cells, starting from the int literal `0`. -/
def run : Nat → St → Job → Res
  | 0, _, _ => none
  | f + 1, s, .cell k =>
    match getformula s k with
    | none => some (.error (.keyError k))
    | some e => run f s (.expr e)
  | _ + 1, s, .expr (.lit v) => some (.ok (v, s))
  | f + 1, s, .expr (.ref x) =>
    onKeyError (run f s (.cell x)) (some (.error (.nameError x)))
  | f + 1, s, .expr (.add e1 e2) =>
    seqVal (run f s (.expr e1)) fun v1 s1 =>
      seqVal (run f s1 (.expr e2)) fun v2 s2 => some (.ok (valAdd v1 v2, s2))
  | f + 1, s, .expr (.sub e1 e2) =>
    seqVal (run f s (.expr e1)) fun v1 s1 =>
      seqVal (run f s1 (.expr e2)) fun v2 s2 => some (.ok (valSub v1 v2, s2))
  | f + 1, s, .expr (.mul e1 e2) =>
    seqVal (run f s (.expr e1)) fun v1 s1 =>
      seqVal (run f s1 (.expr e2)) fun v2 s2 => some (.ok (valMul v1 v2, s2))
  | f + 1, s, .expr (.div e1 e2) =>
    seqVal (run f s (.expr e1)) fun v1 s1 =>
      seqVal (run f s1 (.expr e2)) fun v2 s2 => liftExcept (valDiv v1 v2) s2
  | f + 1, s, .expr (.call g arg) =>
    onKeyError (seqVal (run f s (.cell g)) fun _ _ => some (.error .typeError))
      (if s.toolsSum && g == "sum" then
        match sumParse arg with
        | .error e => some (.error e)
        | .ok axs => run f s (.sloop axs (.int 0))
      else some (.error (.nameError g)))
  | _ + 1, s, .sloop [] acc => some (.ok (acc, s))
  | f + 1, s, .sloop (ax :: rest) acc =>
    seqVal (run f s (.cell ax)) fun v s1 => run f s1 (.sloop rest (valAdd acc v))

/-- Modelled from the spec: the coordinate grammar `<letters><digits>` — a
non-empty `[a-z]` run immediately followed by a non-empty `[0-9]` run, with
nothing else.  Used only to compare the spec's claimed domain of `inv_coords`
against the code's actual behaviour. -/
def coordGrammar (t : String) : Bool :=
  !(t.data.takeWhile isLow).isEmpty
    && !(t.data.dropWhile isLow).isEmpty
    && (t.data.dropWhile isLow).all isDig

/-- Equality of evaluation outcomes is decidable (used only to evaluate the
embedding at concrete inputs). -/
instance instDecEqExcept {ε α : Type} [DecidableEq ε] [DecidableEq α] :
    DecidableEq (Except ε α) := fun x y =>
  match x, y with
  | .error a, .error b =>
    match decEq a b with
    | isTrue h => isTrue (h ▸ rfl)
    | isFalse h => isFalse fun hc => h (Except.error.inj hc)
  | .ok a, .ok b =>
    match decEq a b with
    | isTrue h => isTrue (h ▸ rfl)
    | isFalse h => isFalse fun hc => h (Except.ok.inj hc)
  | .error _, .ok _ => isFalse fun hc => Except.noConfusion hc
  | .ok _, .error _ => isFalse fun hc => Except.noConfusion hc

/-- The circular store of the spec's example: `a1 = "a2"`, `a2 = "a1"`. -/
def cycSt : St := ⟨[("a1", .ref "a2"), ("a2", .ref "a1")], true⟩

/-- The division example store: `a1 = "5"`, `a2 = "2"`, `a3 = "a1/a2"`. -/
def divSt : St :=
  ⟨[("a1", .lit (.int 5)), ("a2", .lit (.int 2)),
    ("a3", .div (.ref "a1") (.ref "a2"))], true⟩

/-- The range-sum example store: `a1 = "1"`, `a2 = "2"`, `a3 = "3"`, `a4 = "4"`. -/
def sumSt : St :=
  ⟨[("a1", .lit (.int 1)), ("a2", .lit (.int 2)),
    ("a3", .lit (.int 3)), ("a4", .lit (.int 4))], true⟩

/-- Evaluating cell `k` diverges in state `s`: every finite recursion budget
is exhausted without a value or an error.  In the Python original this is the
unbounded mutual recursion that only the interpreter's recursion limit stops
(with a `RuntimeError`). -/
def runDiverges (s : St) (k : String) : Prop := ∀ fuel, run fuel s (.cell k) = none

/-! ### Basic facts about the codec -/

theorem colCharsF_congr : ∀ f g col, col < f → col < g → colCharsF f col = colCharsF g col := by
  intro f
  induction f with
  | zero => intro g col h; omega
  | succ f ih =>
    intro g col hf hg
    match g, hg with
    | g + 1, _ =>
      simp only [colCharsF]
      by_cases h26 : col < 26
      · simp [h26]
      · have hd : col / 26 ≤ col := Nat.div_le_self col 26
        have : col / 26 - 1 < f := by omega
        have : col / 26 - 1 < g := by omega
        simp only [h26, if_false]
        rw [ih g (col / 26 - 1) (by omega) (by omega)]

/-- The source equation of the `col_coords` loop. -/
theorem colChars_eq (col : Nat) :
    colChars col =
      if col < 26 then [chrL (col % 26)] else colChars (col / 26 - 1) ++ [chrL (col % 26)] := by
  unfold colChars
  conv_lhs => rw [colCharsF]
  by_cases h26 : col < 26
  · simp [h26]
  · have hd : col / 26 ≤ col := Nat.div_le_self col 26
    simp only [h26, if_false]
    rw [colCharsF_congr col (col / 26 - 1 + 1) (col / 26 - 1) (by omega) (by omega)]

theorem natDigitsF_congr : ∀ f g n, n < f → n < g → natDigitsF f n = natDigitsF g n := by
  intro f
  induction f with
  | zero => intro g n h; omega
  | succ f ih =>
    intro g n hf hg
    match g, hg with
    | g + 1, _ =>
      simp only [natDigitsF]
      by_cases h10 : n < 10
      · simp [h10]
      · have hd : n / 10 ≤ n := Nat.div_le_self n 10
        simp only [h10, if_false]
        rw [ih g (n / 10) (by omega) (by omega)]

theorem natDigits_eq (n : Nat) :
    natDigits n = if n < 10 then [chrD (n % 10)] else natDigits (n / 10) ++ [chrD (n % 10)] := by
  unfold natDigits
  conv_lhs => rw [natDigitsF]
  by_cases h10 : n < 10
  · simp [h10]
  · have hd : n / 10 ≤ n := Nat.div_le_self n 10
    simp only [h10, if_false]
    rw [natDigitsF_congr n (n / 10 + 1) (n / 10) (by omega) (by omega)]

theorem chrL_toNat {d : Nat} (h : d < 26) : (chrL d).toNat = 'a'.toNat + d := by
  interval_cases d <;> decide

theorem chrD_toNat {d : Nat} (h : d < 10) : (chrD d).toNat = '0'.toNat + d := by
  interval_cases d <;> decide

theorem isLow_chrL {d : Nat} (h : d < 26) : isLow (chrL d) = true := by
  have ha : 'a'.toNat = 97 := rfl
  have hz : 'z'.toNat = 122 := rfl
  simp only [isLow, decide_eq_true_iff, chrL_toNat h, ha, hz]
  omega

theorem isDig_chrD {d : Nat} (h : d < 10) : isDig (chrD d) = true := by
  have h0 : '0'.toNat = 48 := rfl
  have h9 : '9'.toNat = 57 := rfl
  simp only [isDig, decide_eq_true_iff, chrD_toNat h, h0, h9]
  omega

theorem isDig_not_isLow {c : Char} (h : isDig c = true) : isLow c = false := by
  have h0 : '0'.toNat = 48 := rfl
  have h9 : '9'.toNat = 57 := rfl
  have ha : 'a'.toNat = 97 := rfl
  have hz : 'z'.toNat = 122 := rfl
  simp only [isDig, decide_eq_true_iff, h0, h9] at h
  simp only [isLow, decide_eq_false_iff_not, ha, hz]
  omega

theorem colChars_ne_nil (col : Nat) : colChars col ≠ [] := by
  rw [colChars_eq]
  by_cases h : col < 26 <;> simp [h]

theorem colChars_all_low (col : Nat) : ∀ c ∈ colChars col, isLow c = true := by
  induction col using Nat.strong_induction_on with
  | _ col ih =>
    rw [colChars_eq]
    by_cases h26 : col < 26
    · simp only [h26, if_true, List.mem_singleton]
      rintro c rfl
      exact isLow_chrL (Nat.mod_lt _ (by omega))
    · have hd : col / 26 ≤ col := Nat.div_le_self col 26
      simp only [h26, if_false, List.mem_append, List.mem_singleton]
      rintro c (hc | rfl)
      · exact ih (col / 26 - 1) (by omega) c hc
      · exact isLow_chrL (Nat.mod_lt _ (by omega))

theorem natDigits_ne_nil (n : Nat) : natDigits n ≠ [] := by
  rw [natDigits_eq]
  by_cases h : n < 10 <;> simp [h]

theorem natDigits_all_dig (n : Nat) : ∀ c ∈ natDigits n, isDig c = true := by
  induction n using Nat.strong_induction_on with
  | _ n ih =>
    rw [natDigits_eq]
    by_cases h10 : n < 10
    · simp only [h10, if_true, List.mem_singleton]
      rintro c rfl
      exact isDig_chrD (Nat.mod_lt _ (by omega))
    · have hd : n / 10 ≤ n := Nat.div_le_self n 10
      simp only [h10, if_false, List.mem_append, List.mem_singleton]
      rintro c (hc | rfl)
      · exact ih (n / 10) (by omega) c hc
      · exact isDig_chrD (Nat.mod_lt _ (by omega))

theorem invColAux_colChars (col : Nat) :
    ∀ a m, invColAux (colChars col).reverse a m = a + (col + 1) * m := by
  induction col using Nat.strong_induction_on with
  | _ col ih =>
    intro a m
    rw [colChars_eq]
    by_cases h26 : col < 26
    · simp only [h26, if_true, List.reverse_singleton, invColAux,
        chrL_toNat (Nat.mod_lt col (by omega) : col % 26 < 26)]
      rw [show 'a'.toNat + col % 26 - 'a'.toNat + 1 = col + 1 from by omega]
    · have hd : col / 26 ≤ col := Nat.div_le_self col 26
      have h1 : 1 ≤ col / 26 := (Nat.one_le_div_iff (by omega)).2 (by omega)
      simp only [h26, if_false, List.reverse_append, List.reverse_singleton,
        List.singleton_append, invColAux,
        chrL_toNat (Nat.mod_lt col (by omega) : col % 26 < 26)]
      rw [show 'a'.toNat + col % 26 - 'a'.toNat + 1 = col % 26 + 1 from by omega,
        ih (col / 26 - 1) (by omega), show col / 26 - 1 + 1 = col / 26 from by omega,
        show col + 1 = 26 * (col / 26) + col % 26 + 1 from by omega]
      ring

theorem digitsVal_natDigits (n : Nat) : digitsVal (natDigits n) = n := by
  induction n using Nat.strong_induction_on with
  | _ n ih =>
    rw [natDigits_eq]
    have h0 : '0'.toNat = 48 := rfl
    by_cases h10 : n < 10
    · simp only [h10, if_true, digitsVal, List.foldl_cons, List.foldl_nil,
        chrD_toNat (Nat.mod_lt n (by omega) : n % 10 < 10), h0]
      omega
    · have hd : n / 10 ≤ n := Nat.div_le_self n 10
      simp only [h10, if_false, digitsVal, List.foldl_append, List.foldl_cons, List.foldl_nil]
      have := ih (n / 10) (by omega)
      simp only [digitsVal] at this
      rw [this, chrD_toNat (Nat.mod_lt n (by omega) : n % 10 < 10), h0]
      omega

theorem takeWhile_append_of_all {p : Char → Bool} :
    ∀ (xs ys : List Char), (∀ x ∈ xs, p x = true) →
      List.takeWhile p (xs ++ ys) = xs ++ List.takeWhile p ys := by
  intro xs
  induction xs with
  | nil => simp
  | cons x xs ih =>
    intro ys h
    have hx : p x = true := h x (by simp)
    simp only [List.cons_append, List.takeWhile_cons, hx, if_true]
    rw [ih ys fun a ha => h a (by simp [ha])]

theorem dropWhile_append_of_all {p : Char → Bool} :
    ∀ (xs ys : List Char), (∀ x ∈ xs, p x = true) →
      List.dropWhile p (xs ++ ys) = List.dropWhile p ys := by
  intro xs
  induction xs with
  | nil => simp
  | cons x xs ih =>
    intro ys h
    have hx : p x = true := h x (by simp)
    simp only [List.cons_append, List.dropWhile_cons, hx, if_true]
    exact ih ys fun a ha => h a (by simp [ha])

theorem takeWhile_eq_self_of_all {p : Char → Bool} :
    ∀ (xs : List Char), (∀ x ∈ xs, p x = true) → List.takeWhile p xs = xs := by
  intro xs h
  have := takeWhile_append_of_all xs [] h
  simpa using this

/-- On a string made of a non-empty all-letter block followed by a non-empty
all-digit block, the regex search matches the whole string, the letters as
group 1 and the digits as group 2. -/
theorem findMatch_letters_digits {ls ds : List Char}
    (hln : ls ≠ []) (hl : ∀ x ∈ ls, isLow x = true)
    (hdn : ds ≠ []) (hd : ∀ x ∈ ds, isDig x = true) :
    findMatch (ls ++ ds) = some (ls, ds) := by
  match ls, hln with
  | ch :: ls', _ =>
    have hch : isLow ch = true := hl ch (by simp)
    match ds, hdn with
    | d :: ds', _ =>
      have hdd : isDig d = true := hd d (by simp)
      have hdrop : List.dropWhile isLow (ch :: (ls' ++ d :: ds')) = d :: ds' := by
        have := dropWhile_append_of_all (ch :: ls') (d :: ds') hl
        simp only [List.cons_append] at this
        rw [this]
        simp [List.dropWhile_cons, isDig_not_isLow hdd]
      have htake : List.takeWhile isLow (ch :: (ls' ++ d :: ds')) = ch :: ls' := by
        have := takeWhile_append_of_all (ch :: ls') (d :: ds') hl
        simp only [List.cons_append] at this
        rw [this]
        simp [List.takeWhile_cons, isDig_not_isLow hdd]
      show findMatch (ch :: (ls' ++ (d :: ds'))) = _
      rw [findMatch]
      simp only [hch, if_true, hdrop, hdd, htake, takeWhile_eq_self_of_all (d :: ds') hd]

/-- Round trip of the codec: decoding an encoded coordinate returns the
original pair, for every column `col ≥ 0` and row `row ≥ -1` (rows decoded by
`inv_coords` are always ≥ -1, since `int(digits) ≥ 0`). -/
theorem inv_coords_coords (col : Nat) (row : Int) (hrow : -1 ≤ row) :
    inv_coords (coords col row) = some (col, row) := by
  have hnn : ¬ row + 1 < 0 := by omega
  have hchars : intChars (row + 1) = natDigits (row + 1).toNat := by
    simp [intChars, hnn]
  simp only [inv_coords, coords, hchars]
  rw [findMatch_letters_digits (colChars_ne_nil col) (colChars_all_low col)
    (natDigits_ne_nil _) (natDigits_all_dig _)]
  show some (invColAux (colChars col).reverse 0 1 - 1,
    (digitsVal (natDigits (row + 1).toNat) : Int) - 1) = some (col, row)
  rw [invColAux_colChars, digitsVal_natDigits]
  simp only [Option.some.injEq, Prod.mk.injEq]
  constructor
  · omega
  · omega

/-! ### Facts about the evaluator -/

@[simp] theorem seqVal_none (k : Val → St → Res) : seqVal none k = none := rfl

@[simp] theorem seqVal_err (e : Err) (k : Val → St → Res) :
    seqVal (some (.error e)) k = some (.error e) := rfl

@[simp] theorem seqVal_ok (v : Val) (s : St) (k : Val → St → Res) :
    seqVal (some (.ok (v, s))) k = k v s := rfl

@[simp] theorem onKeyError_none (alt : Res) : onKeyError none alt = none := rfl

@[simp] theorem onKeyError_key (k : String) (alt : Res) :
    onKeyError (some (.error (.keyError k))) alt = alt := rfl

@[simp] theorem onKeyError_ok (p : Val × St) (alt : Res) :
    onKeyError (some (.ok p)) alt = some (.ok p) := rfl

@[simp] theorem onKeyError_name (x : String) (alt : Res) :
    onKeyError (some (.error (.nameError x))) alt = some (.error (.nameError x)) := rfl

@[simp] theorem onKeyError_type (alt : Res) :
    onKeyError (some (.error .typeError)) alt = some (.error .typeError) := rfl

@[simp] theorem onKeyError_value (alt : Res) :
    onKeyError (some (.error .valueError)) alt = some (.error .valueError) := rfl

@[simp] theorem onKeyError_attr (alt : Res) :
    onKeyError (some (.error .attributeError)) alt = some (.error .attributeError) := rfl

@[simp] theorem onKeyError_zeroDiv (alt : Res) :
    onKeyError (some (.error .zeroDivisionError)) alt = some (.error .zeroDivisionError) := rfl

/-- More recursion budget never changes a completed evaluation. -/
theorem run_mono : ∀ f s j r, run f s j = some r → run (f + 1) s j = some r := by
  intro f
  induction f with
  | zero => intro s j r h; simp [run] at h
  | succ f ih =>
    intro s j r h
    cases j with
    | cell k =>
      simp only [run] at h ⊢
      rcases hg : getformula s k with _ | e
      · rw [hg] at h; exact h
      · rw [hg] at h; exact ih _ _ _ h
    | expr e =>
      cases e with
      | lit v => simp only [run] at h ⊢; exact h
      | ref x =>
        simp only [run] at h ⊢
        rcases hx : run f s (.cell x) with _ | u
        · rw [hx] at h; simp at h
        · rw [hx] at h
          have hx' := ih _ _ _ hx
          simp only [run] at hx'
          rw [hx']
          exact h
      | add e1 e2 =>
        simp only [run] at h ⊢
        rcases hx : run f s (.expr e1) with _ | u
        · rw [hx] at h; simp at h
        · rw [hx] at h
          rw [ih _ _ _ hx]
          rcases u with e | ⟨v1, s1⟩
          · exact h
          · rw [seqVal_ok] at h ⊢
            rcases hy : run f s1 (.expr e2) with _ | u2
            · rw [hy] at h; simp at h
            · rw [hy] at h; rw [ih _ _ _ hy]; exact h
      | sub e1 e2 =>
        simp only [run] at h ⊢
        rcases hx : run f s (.expr e1) with _ | u
        · rw [hx] at h; simp at h
        · rw [hx] at h
          rw [ih _ _ _ hx]
          rcases u with e | ⟨v1, s1⟩
          · exact h
          · rw [seqVal_ok] at h ⊢
            rcases hy : run f s1 (.expr e2) with _ | u2
            · rw [hy] at h; simp at h
            · rw [hy] at h; rw [ih _ _ _ hy]; exact h
      | mul e1 e2 =>
        simp only [run] at h ⊢
        rcases hx : run f s (.expr e1) with _ | u
        · rw [hx] at h; simp at h
        · rw [hx] at h
          rw [ih _ _ _ hx]
          rcases u with e | ⟨v1, s1⟩
          · exact h
          · rw [seqVal_ok] at h ⊢
            rcases hy : run f s1 (.expr e2) with _ | u2
            · rw [hy] at h; simp at h
            · rw [hy] at h; rw [ih _ _ _ hy]; exact h
      | div e1 e2 =>
        simp only [run] at h ⊢
        rcases hx : run f s (.expr e1) with _ | u
        · rw [hx] at h; simp at h
        · rw [hx] at h
          rw [ih _ _ _ hx]
          rcases u with e | ⟨v1, s1⟩
          · exact h
          · rw [seqVal_ok] at h ⊢
            rcases hy : run f s1 (.expr e2) with _ | u2
            · rw [hy] at h; simp at h
            · rw [hy] at h; rw [ih _ _ _ hy]; exact h
      | call g arg =>
        simp only [run] at h ⊢
        rcases hx : run f s (.cell g) with _ | u
        · rw [hx] at h; simp at h
        · rw [hx] at h
          have hx' := ih _ _ _ hx
          simp only [run] at hx'
          rw [hx']
          rcases u with e | p
          · cases e with
            | keyError k2 =>
              rw [seqVal_err, onKeyError_key] at h ⊢
              by_cases ht : s.toolsSum && g == "sum"
              · rw [if_pos ht] at h ⊢
                cases hp : sumParse arg with
                | error e2 => rw [hp] at h; exact h
                | ok axs => rw [hp] at h; exact ih _ _ _ h
              · rw [if_neg ht] at h ⊢; exact h
            | nameError n => exact h
            | typeError => exact h
            | valueError => exact h
            | attributeError => exact h
            | zeroDivisionError => exact h
          · exact h
    | sloop axs acc =>
      cases axs with
      | nil => simp only [run] at h ⊢; exact h
      | cons ax rest =>
        simp only [run] at h ⊢
        rcases hx : run f s (.cell ax) with _ | u
        · rw [hx] at h; simp at h
        · rw [hx] at h
          have hx' := ih _ _ _ hx
          simp only [run] at hx'
          rw [hx']
          rcases u with e | ⟨v, s1⟩
          · exact h
          · rw [seqVal_ok] at h ⊢; exact ih _ _ _ h

/-- `run_mono`, iterated. -/
theorem run_mono_le {f g : Nat} (hfg : f ≤ g) (s : St) (j : Job) (r : Except Err (Val × St))
    (h : run f s j = some r) : run g s j = some r := by
  obtain ⟨d, rfl⟩ : ∃ d, g = f + d := ⟨g - f, by omega⟩
  clear hfg
  induction d with
  | zero => exact h
  | succ d ih => exact run_mono (f + d) s j r ih

/-- Claim C10: evaluation is read-only on the engine state.  For every state,
every evaluation job (a `get_value` on a cell, a formula expression, or the
built-in `sum` accumulation loop) and every recursion budget, if evaluation
terminates successfully then the final threaded state — the coordinate→formula
mapping `_cells` together with the `tools` function registry — is exactly the
initial one. -/
theorem run_readonly : ∀ (f : Nat) (s : St) (j : Job) (v : Val) (s' : St),
    run f s j = some (.ok (v, s')) → s' = s := by
  intro f
  induction f with
  | zero => intro s j v s' h; simp [run] at h
  | succ f ih =>
    intro s j v s' h
    cases j with
    | cell k =>
      simp only [run] at h
      rcases hg : getformula s k with _ | e
      · rw [hg] at h; simp at h
      · rw [hg] at h; exact ih _ _ _ _ h
    | expr e =>
      cases e with
      | lit v0 =>
        simp only [run, Option.some.injEq, Except.ok.injEq, Prod.mk.injEq] at h
        exact h.2.symm
      | ref x =>
        simp only [run] at h
        rcases hx : run f s (.cell x) with _ | u
        · rw [hx] at h; simp at h
        · rw [hx] at h
          rcases u with e | ⟨v2, s2⟩
          · cases e <;> simp_all
          · rw [onKeyError_ok] at h
            have hs2 : s2 = s := ih _ _ _ _ hx
            simp only [Option.some.injEq, Except.ok.injEq, Prod.mk.injEq] at h
            rw [← h.2, hs2]
      | add e1 e2 =>
        simp only [run] at h
        rcases hx : run f s (.expr e1) with _ | u
        · rw [hx] at h; simp at h
        · rw [hx] at h
          rcases u with e | ⟨v1, s1⟩
          · simp at h
          · rw [seqVal_ok] at h
            have hs1 : s1 = s := ih _ _ _ _ hx
            rcases hy : run f s1 (.expr e2) with _ | u2
            · rw [hy] at h; simp at h
            · rw [hy] at h
              rcases u2 with e | ⟨v2, s2⟩
              · simp at h
              · rw [seqVal_ok] at h
                have hs2 : s2 = s1 := ih _ _ _ _ hy
                simp only [Option.some.injEq, Except.ok.injEq, Prod.mk.injEq] at h
                rw [← h.2, hs2, hs1]
      | sub e1 e2 =>
        simp only [run] at h
        rcases hx : run f s (.expr e1) with _ | u
        · rw [hx] at h; simp at h
        · rw [hx] at h
          rcases u with e | ⟨v1, s1⟩
          · simp at h
          · rw [seqVal_ok] at h
            have hs1 : s1 = s := ih _ _ _ _ hx
            rcases hy : run f s1 (.expr e2) with _ | u2
            · rw [hy] at h; simp at h
            · rw [hy] at h
              rcases u2 with e | ⟨v2, s2⟩
              · simp at h
              · rw [seqVal_ok] at h
                have hs2 : s2 = s1 := ih _ _ _ _ hy
                simp only [Option.some.injEq, Except.ok.injEq, Prod.mk.injEq] at h
                rw [← h.2, hs2, hs1]
      | mul e1 e2 =>
        simp only [run] at h
        rcases hx : run f s (.expr e1) with _ | u
        · rw [hx] at h; simp at h
        · rw [hx] at h
          rcases u with e | ⟨v1, s1⟩
          · simp at h
          · rw [seqVal_ok] at h
            have hs1 : s1 = s := ih _ _ _ _ hx
            rcases hy : run f s1 (.expr e2) with _ | u2
            · rw [hy] at h; simp at h
            · rw [hy] at h
              rcases u2 with e | ⟨v2, s2⟩
              · simp at h
              · rw [seqVal_ok] at h
                have hs2 : s2 = s1 := ih _ _ _ _ hy
                simp only [Option.some.injEq, Except.ok.injEq, Prod.mk.injEq] at h
                rw [← h.2, hs2, hs1]
      | div e1 e2 =>
        simp only [run] at h
        rcases hx : run f s (.expr e1) with _ | u
        · rw [hx] at h; simp at h
        · rw [hx] at h
          rcases u with e | ⟨v1, s1⟩
          · simp at h
          · rw [seqVal_ok] at h
            have hs1 : s1 = s := ih _ _ _ _ hx
            rcases hy : run f s1 (.expr e2) with _ | u2
            · rw [hy] at h; simp at h
            · rw [hy] at h
              rcases u2 with e | ⟨v2, s2⟩
              · simp at h
              · rw [seqVal_ok] at h
                have hs2 : s2 = s1 := ih _ _ _ _ hy
                cases hvd : valDiv v1 v2 with
                | error e3 => rw [hvd] at h; simp [liftExcept] at h
                | ok v3 =>
                  rw [hvd] at h
                  simp only [liftExcept, Option.some.injEq, Except.ok.injEq,
                    Prod.mk.injEq] at h
                  rw [← h.2, hs2, hs1]
      | call g arg =>
        simp only [run] at h
        rcases hx : run f s (.cell g) with _ | u
        · rw [hx] at h; simp at h
        · rw [hx] at h
          rcases u with e | p
          · cases e with
            | keyError k2 =>
              rw [seqVal_err, onKeyError_key] at h
              by_cases ht : s.toolsSum && g == "sum"
              · rw [if_pos ht] at h
                cases hp : sumParse arg with
                | error e2 => rw [hp] at h; simp at h
                | ok axs => rw [hp] at h; exact ih _ _ _ _ h
              · rw [if_neg ht] at h; simp at h
            | nameError n => simp at h
            | typeError => simp at h
            | valueError => simp at h
            | attributeError => simp at h
            | zeroDivisionError => simp at h
          · rcases p with ⟨pv, ps⟩
            simp at h
    | sloop axs acc =>
      cases axs with
      | nil =>
        simp only [run, Option.some.injEq, Except.ok.injEq, Prod.mk.injEq] at h
        exact h.2.symm
      | cons ax rest =>
        simp only [run] at h
        rcases hx : run f s (.cell ax) with _ | u
        · rw [hx] at h; simp at h
        · rw [hx] at h
          rcases u with e | ⟨v1, s1⟩
          · simp at h
          · rw [seqVal_ok] at h
            have hs1 : s1 = s := ih _ _ _ _ hx
            have hs' := ih _ _ _ _ h
            rw [hs', hs1]

/-- The summation loop of `SpreadSheet.sum`: if every cell of the list
evaluates (at budget `f`, in state `s`, without changing the state) to the
value given by `v`, the loop accumulates `valAdd` over the list from the
running total `acc`. -/
theorem run_sloop (v : String → Val) :
    ∀ (axs : List String) (f : Nat) (s : St) (acc : Val),
      (∀ ax ∈ axs, run f s (.cell ax) = some (.ok (v ax, s))) →
      run (f + axs.length + 1) s (.sloop axs acc) =
        some (.ok (axs.foldl (fun a ax => valAdd a (v ax)) acc, s)) := by
  intro axs
  induction axs with
  | nil =>
    intro f s acc _
    simp [run]
  | cons ax rest ih =>
    intro f s acc h
    have hx : run f s (.cell ax) = some (.ok (v ax, s)) := h ax (by simp)
    have hx2 : run (f + rest.length + 1) s (.cell ax) = some (.ok (v ax, s)) :=
      run_mono_le (by omega) _ _ _ hx
    have hrec : run (f + rest.length + 1) s (.sloop rest (valAdd acc (v ax))) =
        some (.ok (rest.foldl (fun a ax => valAdd a (v ax)) (valAdd acc (v ax)), s)) :=
      ih f s (valAdd acc (v ax)) (fun a ha => h a (by simp [ha]))
    have hfuel : f + (ax :: rest).length + 1 = (f + rest.length + 1) + 1 := by
      simp [List.length_cons]
      omega
    rw [hfuel]
    simp only [run]
    have hx2' := hx2
    simp only [run] at hx2'
    rw [hx2', seqVal_ok, List.foldl_cons]
    exact hrec

/-! ### The rectangle enumerated by `sum` -/

theorem inv_coords_row_ge {t : String} {c : Nat} {l : Int}
    (h : inv_coords t = some (c, l)) : -1 ≤ l := by
  unfold inv_coords at h
  cases hf : findMatch t.data with
  | none => rw [hf] at h; simp at h
  | some p =>
    rcases p with ⟨ls, ds⟩
    rw [hf] at h
    simp only [Option.some.injEq, Prod.mk.injEq] at h
    omega

theorem coords_inj {c c' : Nat} {l l' : Int} (hl : -1 ≤ l) (hl' : -1 ≤ l')
    (h : coords c l = coords c' l') : c = c' ∧ l = l' := by
  have h1 := inv_coords_coords c l hl
  have h2 := inv_coords_coords c' l' hl'
  rw [h, h2] at h1
  simp only [Option.some.injEq, Prod.mk.injEq] at h1
  exact ⟨h1.1.symm, h1.2.symm⟩

theorem mem_natRange {a b c : Nat} : c ∈ natRange a b ↔ a ≤ c ∧ c ≤ b := by
  simp only [natRange, List.mem_range']
  constructor
  · rintro ⟨i, hi, rfl⟩; omega
  · intro h; exact ⟨c - a, by omega⟩

theorem mem_intRange {a b l : Int} : l ∈ intRange a b ↔ a ≤ l ∧ l ≤ b := by
  simp only [intRange, List.mem_map]
  constructor
  · rintro ⟨i, hi, rfl⟩
    have hi2 : i < (b + 1 - a).toNat := List.mem_range.mp hi
    omega
  · intro h
    exact ⟨(l - a).toNat, List.mem_range.mpr (by omega), by omega⟩

theorem rectAxes_mem (c1 c2 : Nat) (l1 l2 : Int) (ax : String) :
    ax ∈ rectAxes c1 c2 l1 l2 ↔
      ∃ c l, c1 ≤ c ∧ c ≤ c2 ∧ l1 ≤ l ∧ l ≤ l2 ∧ ax = coords c l := by
  simp only [rectAxes, List.mem_flatMap, List.mem_map]
  constructor
  · rintro ⟨c, hc, l, hl, rfl⟩
    rw [mem_natRange] at hc
    rw [mem_intRange] at hl
    exact ⟨c, l, hc.1, hc.2, hl.1, hl.2, rfl⟩
  · rintro ⟨c, l, h1, h2, h3, h4, rfl⟩
    exact ⟨c, mem_natRange.mpr ⟨h1, h2⟩, l, mem_intRange.mpr ⟨h3, h4⟩, rfl⟩

theorem rectAxes_nodup (c1 c2 : Nat) (l1 l2 : Int) (hl1 : -1 ≤ l1) :
    (rectAxes c1 c2 l1 l2).Nodup := by
  rw [rectAxes, List.nodup_flatMap]
  constructor
  · intro c _
    refine List.Nodup.map_on ?_ ?_
    · intro l hl l' hl' hco
      rw [mem_intRange] at hl hl'
      exact (coords_inj (by omega) (by omega) hco).2
    · simp only [intRange]
      refine List.Nodup.map ?_ (List.nodup_range _)
      intro i j hij
      simp only [] at hij
      omega
  · have hp : (natRange c1 c2).Pairwise (· < ·) := by
      simpa [natRange] using List.pairwise_lt_range' c1 (c2 + 1 - c1) 1
    refine hp.imp ?_
    intro c c' hlt ax hax hax'
    simp only [List.mem_map] at hax hax'
    obtain ⟨l, hl, rfl⟩ := hax
    obtain ⟨l', hl', hco⟩ := hax'
    rw [mem_intRange] at hl hl'
    have hcc := (coords_inj (by omega) (by omega) hco).1
    omega

/-! ### Order-independence of the accumulation -/

theorem valAdd_rightComm (a x y : Val) : valAdd (valAdd a x) y = valAdd (valAdd a y) x := by
  cases a <;> cases x <;> cases y <;> simp [valAdd] <;> ring

theorem foldl_valAdd_perm {l1 l2 : List Val} (hp : l1.Perm l2) :
    ∀ a, l1.foldl valAdd a = l2.foldl valAdd a := by
  induction hp with
  | nil => intro a; rfl
  | cons x _ ih => intro a; simp only [List.foldl_cons]; exact ih _
  | swap x y l =>
    intro a
    simp only [List.foldl_cons]
    rw [valAdd_rightComm]
  | trans _ _ ih1 ih2 => intro a; rw [ih1, ih2]

/-! ### Circular references recurse forever -/

theorem cyc_run_none (s : St) (h1 : getformula s "a1" = some (.ref "a2"))
    (h2 : getformula s "a2" = some (.ref "a1")) :
    ∀ fuel, run fuel s (.cell "a1") = none ∧ run fuel s (.cell "a2") = none ∧
      run fuel s (.expr (.ref "a1")) = none ∧ run fuel s (.expr (.ref "a2")) = none := by
  intro fuel
  induction fuel with
  | zero => exact ⟨rfl, rfl, rfl, rfl⟩
  | succ f ih =>
    obtain ⟨c1, c2, r1, r2⟩ := ih
    refine ⟨?_, ?_, ?_, ?_⟩
    · simp only [run, h1]; exact r2
    · simp only [run, h2]; exact r1
    · simp only [run, c1, onKeyError_none]
    · simp only [run, c2, onKeyError_none]

/-! ### Splitting the range text -/

theorem splitCh_ne_nil : ∀ cs : List Char, splitCh cs ≠ [] := by
  intro cs
  cases cs with
  | nil => simp [splitCh]
  | cons c rest =>
    by_cases hc : c = ':'
    · simp [splitCh, hc]
    · simp only [splitCh, if_neg hc]
      cases splitCh rest <;> simp

theorem splitCh_length : ∀ cs : List Char, (splitCh cs).length = cs.count ':' + 1 := by
  intro cs
  induction cs with
  | nil => rfl
  | cons c rest ih =>
    by_cases hc : c = ':'
    · subst hc
      simp [splitCh, List.count_cons, ih]
    · have hne := splitCh_ne_nil rest
      simp only [splitCh, if_neg hc]
      cases h : splitCh rest with
      | nil => exact absurd h hne
      | cons g gs =>
        rw [h] at ih
        simp only [List.length_cons] at ih ⊢
        rw [List.count_cons]
        simp only [beq_iff_eq, if_neg hc]
        omega

/-! ### When the coordinate regex matches -/

theorem dropWhile_cons_head {p : Char → Bool} :
    ∀ (l : List Char) (a : Char) (t : List Char), List.dropWhile p l = a :: t → p a = false := by
  intro l
  induction l with
  | nil => intro a t h; simp [List.dropWhile] at h
  | cons x xs ih =>
    intro a t h
    by_cases hp : p x = true
    · rw [List.dropWhile_cons, if_pos hp] at h
      exact ih a t h
    · rw [List.dropWhile_cons, if_neg hp] at h
      injection h with h1 h2
      simp only [Bool.not_eq_true] at hp
      rw [← h1]
      exact hp

/-- The regex search of `inv_coords` succeeds exactly on strings containing a
lowercase letter immediately followed by a decimal digit. -/
theorem findMatch_isSome : ∀ cs : List Char,
    (findMatch cs).isSome = true ↔
      ∃ pre a d post, cs = pre ++ a :: d :: post ∧ isLow a = true ∧ isDig d = true := by
  intro cs
  induction cs with
  | nil =>
    constructor
    · intro h; simp [findMatch] at h
    · rintro ⟨pre, a, d, post, h, -, -⟩
      cases pre <;> simp_all
  | cons ch rest ih =>
    by_cases hlow : isLow ch = true
    · cases hdw : List.dropWhile isLow (ch :: rest) with
      | nil =>
        have hall : ∀ x ∈ ch :: rest, isLow x = true := List.dropWhile_eq_nil_iff.mp hdw
        have hfm : findMatch (ch :: rest) = findMatch rest := by
          simp only [findMatch, hlow, if_true, hdw]
        rw [hfm, ih]
        have hfalse : ∀ (l : List Char), (∀ x ∈ l, isLow x = true) →
            ¬ ∃ pre a d post,
              l = pre ++ a :: d :: post ∧ isLow a = true ∧ isDig d = true := by
          rintro l hl ⟨pre, a, d, post, hEq, ha, hd⟩
          have hdl : d ∈ l := by rw [hEq]; simp
          have hld := hl d hdl
          rw [isDig_not_isLow hd] at hld
          exact Bool.false_ne_true hld
        exact iff_of_false
          (hfalse rest fun x hx => hall x (List.mem_cons_of_mem _ hx))
          (hfalse _ hall)
      | cons d ds =>
        have hdlow : isLow d = false := dropWhile_cons_head _ _ _ hdw
        by_cases hdig : isDig d = true
        · have hfm : findMatch (ch :: rest) =
              some ((ch :: rest).takeWhile isLow, (d :: ds).takeWhile isDig) := by
            simp only [findMatch, hlow, if_true, hdw, hdig]
          refine iff_of_true (by rw [hfm]; rfl) ?_
          have htd := List.takeWhile_append_dropWhile isLow (ch :: rest)
          rw [hdw] at htd
          have hLne : List.takeWhile isLow (ch :: rest) ≠ [] := by
            rw [List.takeWhile_cons, if_pos hlow]
            simp
          obtain hnil | ⟨L0, lastc, hL⟩ :=
            List.eq_nil_or_concat' (List.takeWhile isLow (ch :: rest))
          · exact absurd hnil hLne
          · have hlastlow : isLow lastc = true := by
              apply List.mem_takeWhile_imp (l := ch :: rest) (p := isLow)
              rw [hL]; simp
            refine ⟨L0, lastc, d, ds, ?_, hlastlow, hdig⟩
            rw [← htd, hL]
            simp [List.append_assoc]
        · have hfm : findMatch (ch :: rest) = findMatch rest := by
            simp only [findMatch, hlow, if_true, hdw]
            simp [hdig]
          rw [hfm, ih]
          constructor
          · rintro ⟨pre, a, d2, post, hEq, ha, hd2⟩
            exact ⟨ch :: pre, a, d2, post, by rw [List.cons_append, hEq], ha, hd2⟩
          · rintro ⟨pre, a, d2, post, hEq, ha, hd2⟩
            cases pre with
            | cons p pre' =>
              rw [List.cons_append] at hEq
              injection hEq with h1 h2
              exact ⟨pre', a, d2, post, h2, ha, hd2⟩
            | nil =>
              simp only [List.nil_append] at hEq
              injection hEq with h1 h2
              exfalso
              have hdd : List.dropWhile isLow (ch :: rest) = d2 :: post := by
                rw [List.dropWhile_cons, if_pos hlow, h2, List.dropWhile_cons,
                  if_neg (by simp [isDig_not_isLow hd2])]
              rw [hdw] at hdd
              injection hdd with h3 h4
              rw [← h3] at hd2
              exact hdig hd2
    · have hfm : findMatch (ch :: rest) = findMatch rest := by
        simp [findMatch, hlow]
      rw [hfm, ih]
      constructor
      · rintro ⟨pre, a, d2, post, hEq, ha, hd2⟩
        exact ⟨ch :: pre, a, d2, post, by rw [List.cons_append, hEq], ha, hd2⟩
      · rintro ⟨pre, a, d2, post, hEq, ha, hd2⟩
        cases pre with
        | cons p pre' =>
          rw [List.cons_append] at hEq
          injection hEq with h1 h2
          exact ⟨pre', a, d2, post, h2, ha, hd2⟩
        | nil =>
          simp only [List.nil_append] at hEq
          injection hEq with h1 h2
          rw [h1] at hlow
          exact absurd ha hlow

theorem inv_coords_isSome_eq (t : String) :
    (inv_coords t).isSome = (findMatch t.data).isSome := by
  unfold inv_coords
  cases hf : findMatch t.data with
  | none => rfl
  | some p =>
    rcases p with ⟨ls, ds⟩
    rfl

/-! ### The claims -/

/-- Claim C1: for every column index `c ≤ 18277` and row index `r ≤ 999999`,
decoding the encoded coordinate string round-trips exactly:
`inv_coords (coords c r) = (c, r)`. -/
theorem coords_roundtrip (c r : Nat) (_hc : c ≤ 18277) (_hr : r ≤ 999999) :
    inv_coords (coords c (r : Int)) = some (c, (r : Int)) :=
  inv_coords_coords c r (by omega)

/-- Witness for C1 at the three-letter column 702 and row 41. -/
theorem coords_roundtrip_witness :
    (702 ≤ 18277 ∧ 41 ≤ 999999) ∧
      inv_coords (coords 702 (41 : Int)) = some (702, (41 : Int)) :=
  ⟨⟨by decide, by decide⟩, coords_roundtrip 702 41 (by decide) (by decide)⟩

/-- Claim C2 (amended): for every engine state storing `a1 = "a2"` and
`a2 = "a1"`, evaluating `a1` re-enters itself forever — with every finite
recursion budget the evaluation terminates with neither a value nor an
exception.  The code has no active-evaluation marker and no `CircularReference`
failure; in Python only the interpreter's recursion limit (`RuntimeError`)
stops it. -/
theorem circular_reference_diverges (s : St)
    (h1 : getformula s "a1" = some (.ref "a2"))
    (h2 : getformula s "a2" = some (.ref "a1")) (fuel : Nat) :
    run fuel s (.cell "a1") = none :=
  (cyc_run_none s h1 h2 fuel).1

/-- Witness for C2 on the concrete circular store at budget 100. -/
theorem circular_reference_diverges_witness :
    getformula cycSt "a1" = some (.ref "a2") ∧
      getformula cycSt "a2" = some (.ref "a1") ∧
      run 100 cycSt (.cell "a1") = none :=
  ⟨by decide, by decide, circular_reference_diverges cycSt (by decide) (by decide) 100⟩

/-- Counterexample for C2 as stated: on the spec's own example store
(`a1 = "a2"`, `a2 = "a1"`) cell-value lookup of `a1` does not fail with any
exception: it diverges, exhausting every finite recursion budget. -/
theorem circular_reference_counterexample : runDiverges cycSt "a1" :=
  fun fuel => (cyc_run_none cycSt (by decide) (by decide) fuel).1

/-- Counterexample for C3 as stated: on a freshly constructed engine with no
stored formulas, cell-value lookup of `a1` raises `KeyError`, it does not
return 0. -/
theorem unset_cell_counterexample :
    run 1 (newInstance initState) (.cell "a1") = some (.error (.keyError "a1")) ∧
      run 1 (newInstance initState) (.cell "a1") ≠
        some (.ok (.int 0, newInstance initState)) := by
  decide

/-- Claim C3 (amended): for every coordinate with no stored formula, a direct
cell-value lookup (`__getitem__`) raises `KeyError`, and a reference to that
coordinate from inside another formula raises `NameError` (the `KeyError` is
swallowed by `LOAD_NAME` and the name falls through globals and builtins).
The "unset cell is 0" default lives in the table adapter, which stores the
literal formula text `"0"` for cells without a formula — not in `get_value`. -/
theorem unset_cell_raises (f : Nat) (s : St) (k : String)
    (h : getformula s k = none) :
    run (f + 1) s (.cell k) = some (.error (.keyError k)) ∧
      run (f + 2) s (.expr (.ref k)) = some (.error (.nameError k)) := by
  have hc : run (f + 1) s (.cell k) = some (.error (.keyError k)) := by
    simp only [run, h]
  refine ⟨hc, ?_⟩
  have hc' := hc
  simp only [run] at hc'
  show run ((f + 1) + 1) s (.expr (.ref k)) = _
  simp only [run, h, onKeyError_key]

/-- Witness for C3 on a store holding only `b1`. -/
theorem unset_cell_raises_witness :
    getformula (⟨[("b1", .lit (.int 7))], true⟩ : St) "a1" = none ∧
      (run 1 (⟨[("b1", .lit (.int 7))], true⟩ : St) (.cell "a1") =
          some (.error (.keyError "a1")) ∧
        run 2 (⟨[("b1", .lit (.int 7))], true⟩ : St) (.expr (.ref "a1")) =
          some (.error (.nameError "a1"))) :=
  ⟨by decide, unset_cell_raises 0 _ "a1" (by decide)⟩

/-- Counterexample for C4 as stated: with `a1 = "5"`, `a2 = "2"`,
`a3 = "a1/a2"`, evaluating `a3` yields the Python 2 int `2` — and an int is
never the float 2.5 the claim demands. -/
theorem division_truncates_counterexample :
    run 10 divSt (.cell "a3") = some (.ok (.int 2, divSt)) ∧
      ∀ q : Rat, Val.int 2 ≠ Val.float q := by
  refine ⟨by decide, ?_⟩
  intro q h
  exact Val.noConfusion h

/-- Claim C4 (amended): the source is Python 2, where `/` on two ints is
truncating (floor) integer division; with `a1 = "5"`, `a2 = "2"`,
`a3 = "a1/a2"`, evaluating `a3` yields the int 2, not 2.5. -/
theorem division_truncates (f : Nat) (s : St)
    (h1 : getformula s "a1" = some (.lit (.int 5)))
    (h2 : getformula s "a2" = some (.lit (.int 2)))
    (h3 : getformula s "a3" = some (.div (.ref "a1") (.ref "a2"))) :
    run (f + 6) s (.cell "a3") = some (.ok (.int 2, s)) := by
  show run ((f + 5) + 1) s (.cell "a3") = _
  simp only [run, h1, h2, h3, seqVal_ok, onKeyError_ok]
  rfl

/-- Witness for C4 on the concrete store. -/
theorem division_truncates_witness :
    (getformula divSt "a1" = some (.lit (.int 5)) ∧
      getformula divSt "a2" = some (.lit (.int 2)) ∧
      getformula divSt "a3" = some (.div (.ref "a1") (.ref "a2"))) ∧
      run 6 divSt (.cell "a3") = some (.ok (.int 2, divSt)) :=
  ⟨⟨by decide, by decide, by decide⟩,
    division_truncates 0 divSt (by decide) (by decide) (by decide)⟩

/-- Claim C5: for every well-formed range text splitting into two endpoints
that decode to `(c1, l1)` and `(c2, l2)` with `c1 ≤ c2` and `l1 ≤ l2`, the
built-in `sum` evaluates `get_value` over the cells of the inclusive rectangle
and returns the accumulated total; the enumerated cell list has no duplicates,
contains exactly the coordinates of the rectangle, and the accumulated total
is invariant under any permutation of the evaluated values — in particular
`sum("a1:a4")` over `a1..a4 = 1..4` yields 10 (see the witness). -/
theorem sum_rectangle (f : Nat) (s : St) (txt a b : String) (c1 c2 : Nat)
    (l1 l2 : Int) (v : String → Val)
    (hsplit : splitColon txt = [a, b])
    (ha : inv_coords a = some (c1, l1)) (hb : inv_coords b = some (c2, l2))
    (_hc : c1 ≤ c2) (_hl : l1 ≤ l2)
    (hshadow : getformula s "sum" = none) (htools : s.toolsSum = true)
    (hv : ∀ ax ∈ rectAxes c1 c2 l1 l2, run f s (.cell ax) = some (.ok (v ax, s))) :
    run (f + (rectAxes c1 c2 l1 l2).length + 2) s (.expr (.call "sum" txt)) =
        some (.ok ((rectAxes c1 c2 l1 l2).foldl
          (fun acc ax => valAdd acc (v ax)) (.int 0), s))
      ∧ (rectAxes c1 c2 l1 l2).Nodup
      ∧ (∀ ax, ax ∈ rectAxes c1 c2 l1 l2 ↔
          ∃ c l, c1 ≤ c ∧ c ≤ c2 ∧ l1 ≤ l ∧ l ≤ l2 ∧ ax = coords c l)
      ∧ ∀ vs : List Val, ((rectAxes c1 c2 l1 l2).map v).Perm vs →
          vs.foldl valAdd (.int 0) =
            (rectAxes c1 c2 l1 l2).foldl (fun acc ax => valAdd acc (v ax)) (.int 0) := by
  have hl1 : -1 ≤ l1 := inv_coords_row_ge ha
  have hparse : sumParse txt = .ok (rectAxes c1 c2 l1 l2) := by
    simp only [sumParse, hsplit, ha, hb]
  refine ⟨?_, rectAxes_nodup c1 c2 l1 l2 hl1, fun ax => rectAxes_mem c1 c2 l1 l2 ax, ?_⟩
  · have hsl := run_sloop v (rectAxes c1 c2 l1 l2) f s (.int 0) hv
    show run ((f + (rectAxes c1 c2 l1 l2).length + 1) + 1) s
      (.expr (.call "sum" txt)) = _
    simp only [run, hshadow, htools, seqVal_err, onKeyError_key, beq_self_eq_true,
      Bool.and_self, if_true, hparse]
    exact hsl
  · intro vs hperm
    rw [foldl_valAdd_perm hperm.symm (.int 0), List.foldl_map]

/-- Witness for C5: the spec's own example, `a1..a4` holding `1, 2, 3, 4` and
the function cell evaluating `sum("a1:a4")` to 10. -/
theorem sum_rectangle_witness :
    (splitColon "a1:a4" = ["a1", "a4"]
      ∧ inv_coords "a1" = some (0, 0) ∧ inv_coords "a4" = some (0, 3)
      ∧ getformula sumSt "sum" = none ∧ sumSt.toolsSum = true)
    ∧ run 9 sumSt (.expr (.call "sum" "a1:a4")) = some (.ok (.int 10, sumSt)) := by
  refine ⟨⟨by decide, by decide, by decide, by decide, by decide⟩, ?_⟩
  have h := (sum_rectangle 3 sumSt "a1:a4" "a1" "a4" 0 0 0 3
    (fun ax => if ax = "a1" then .int 1 else if ax = "a2" then .int 2
      else if ax = "a3" then .int 3 else .int 4)
    (by decide) (by decide) (by decide) (by decide) (by decide) (by decide)
    (by decide) (by decide)).1
  exact h.trans (by decide)

/-- Claim C6: for every range text that does not contain exactly one `':'`, or
that splits into two endpoints of which one fails coordinate decoding, the
built-in `sum` fails before evaluating any cell: tuple unpacking of
`cells.split(':')` raises `ValueError`, or `inv_coords` raises
`AttributeError` (these two exceptions are what the spec calls
`MalformedRange` — the source defines no exception classes). -/
theorem sum_malformed_range (f : Nat) (s : St) (txt : String)
    (h : txt.data.count ':' ≠ 1 ∨
      ∃ a b, splitColon txt = [a, b] ∧ (inv_coords a = none ∨ inv_coords b = none)) :
    ∃ e, sumParse txt = .error e ∧ (e = .valueError ∨ e = .attributeError) ∧
      (getformula s "sum" = none → s.toolsSum = true →
        run (f + 2) s (.expr (.call "sum" txt)) = some (.error e)) := by
  have main : ∃ e, sumParse txt = .error e ∧ (e = .valueError ∨ e = .attributeError) := by
    rcases h with hcount | ⟨a, b, hs, hinv⟩
    · have hlen : (splitColon txt).length ≠ 2 := by
        simp only [splitColon, List.length_map, splitCh_length]
        omega
      refine ⟨.valueError, ?_, Or.inl rfl⟩
      rcases hsp : splitColon txt with _ | ⟨x, _ | ⟨y, _ | ⟨z, rest⟩⟩⟩
      · simp [sumParse, hsp]
      · simp [sumParse, hsp]
      · rw [hsp] at hlen; simp at hlen
      · simp [sumParse, hsp]
    · rcases hinv with hna | hnb
      · refine ⟨.attributeError, ?_, Or.inr rfl⟩
        simp [sumParse, hs, hna]
      · cases hia : inv_coords a with
        | none =>
          refine ⟨.attributeError, ?_, Or.inr rfl⟩
          simp [sumParse, hs, hia]
        | some p =>
          rcases p with ⟨c1, l1⟩
          refine ⟨.attributeError, ?_, Or.inr rfl⟩
          simp [sumParse, hs, hia, hnb]
  obtain ⟨e, he, hkind⟩ := main
  refine ⟨e, he, hkind, fun hshadow htools => ?_⟩
  show run ((f + 1) + 1) s (.expr (.call "sum" txt)) = _
  simp only [run, hshadow, htools, seqVal_err, onKeyError_key, beq_self_eq_true,
    Bool.and_self, if_true, he]

/-- Witness for C6 on the spec's example `sum("a1-a4")` (wrong separator). -/
theorem sum_malformed_range_witness :
    "a1-a4".data.count ':' ≠ 1 ∧
      sumParse "a1-a4" = .error .valueError ∧
      run 2 (newInstance initState) (.expr (.call "sum" "a1-a4")) =
        some (.error .valueError) := by
  obtain ⟨e, he, hkind, himp⟩ :=
    sum_malformed_range 0 (newInstance initState) "a1-a4" (Or.inl (by decide))
  have heq : e = .valueError := by
    have h2 : sumParse "a1-a4" = .error .valueError := by decide
    rw [he] at h2
    exact Except.error.inj h2
  subst heq
  exact ⟨by decide, he, himp (by decide) (by decide)⟩

/-- Counterexample for C7 as stated: `"a1b"` does not match the coordinate
grammar `<letters><digits>` (trailing `b`), yet `inv_coords` succeeds on it,
decoding the leftmost embedded match `a1` to `(0, 0)`. -/
theorem inv_coords_lenient_counterexample :
    coordGrammar "a1b" = false ∧ inv_coords "a1b" = some (0, 0) := by
  decide

/-- Claim C7 (amended): `inv_coords` uses `re.search`, not a full match, so
decoding succeeds exactly on texts containing a lowercase letter immediately
followed by a decimal digit somewhere (the leftmost such match is decoded and
the surrounding characters are ignored); on all other texts it fails — with an
`AttributeError` from `r.group` on `None`, there is no `MalformedCoordinate`
exception in the source. -/
theorem inv_coords_domain (t : String) :
    (inv_coords t).isSome = true ↔
      ∃ pre a d post, t.data = pre ++ a :: d :: post ∧
        isLow a = true ∧ isDig d = true := by
  rw [inv_coords_isSome_eq]
  exact findMatch_isSome t.data

/-- Counterexample for C8 as stated: a formula stored through one engine
instance is still visible through a freshly constructed instance — `_cells`
is a class attribute shared by all instances, and `__init__` does not clear
it. -/
theorem shared_cells_counterexample :
    getformula (newInstance (setItem (newInstance initState) "a1" (.lit (.int 1)))) "a1"
      = some (.lit (.int 1)) := by
  decide

/-- Claim C8 (amended): the coordinate→formula mapping is class-level shared
state, not instance-owned: constructing a new `SpreadSheet` (which only
re-registers `sum` in the equally shared `tools` dict) leaves the cell store
untouched, so every formula stored through any previous instance remains in
the evaluation context of the new one. -/
theorem newInstance_shares_cells (s : St) (k : String) :
    (newInstance s).cells = s.cells ∧ getformula (newInstance s) k = getformula s k :=
  ⟨rfl, rfl⟩

/-- Claim C9: the column encoding is bijective base-26 with no zero letter:
`col_coords 0 = "a"`, `col_coords 25 = "z"`, `col_coords 26 = "aa"`,
`col_coords 701 = "zz"`, `col_coords 702 = "aaa"`. -/
theorem col_coords_boundaries :
    col_coords 0 = "a" ∧ col_coords 25 = "z" ∧ col_coords 26 = "aa"
      ∧ col_coords 701 = "zz" ∧ col_coords 702 = "aaa" := by
  decide

/-- Witness for C10: a successful concrete evaluation whose final state the
frame theorem pins to the initial one. -/
theorem run_readonly_witness :
    run 3 sumSt (.cell "a1") = some (.ok (.int 1, sumSt)) ∧ sumSt = sumSt :=
  ⟨by decide, run_readonly 3 sumSt (.cell "a1") (.int 1) sumSt (by decide)⟩

end SimpleSpreadsheet
